import Mathlib

/-!
Shallow embedding of the repo-explorer cache and search subsystem
(cacheManager.ts: `buildSearchIndex`, `isCacheValid`, `searchCodeWithCache`;
index.ts: the `search_code` tool handler), together with theorems settling
the claims about it.  Strings are modelled as lists of characters, the
filesystem and git as explicit state records, and JavaScript objects as
association lists in insertion order.
-/

/-- JavaScript strings are modelled as lists of characters. -/
abbrev Chars := List Char

/-! ## Tokenizer

The indexer extracts identifier-shaped tokens with the global regex
`[a-zA-Z_$][a-zA-Z0-9_$]*` : successive maximal runs of identifier
characters whose first character is not a digit. -/

/-- Characters allowed inside an identifier token (letters, digits, underscore, dollar). -/
def isIdentChar (c : Char) : Bool := c.isAlpha || c.isDigit || c == '_' || c == '$'

/-- Characters allowed to start an identifier token (letters, underscore, dollar). -/
def isIdentStart (c : Char) : Bool := c.isAlpha || c == '_' || c == '$'

/-- Scanner state machine for the identifier regex; `cur` holds the current
token reversed while inside a token. -/
def lineTokensGo (cur : Option Chars) : Chars → List Chars
  | [] =>
    match cur with
    | none => []
    | some t => [t.reverse]
  | c :: rest =>
    match cur with
    | some t =>
      if isIdentChar c then lineTokensGo (some (c :: t)) rest
      else t.reverse :: lineTokensGo none rest
    | none =>
      if isIdentStart c then lineTokensGo (some [c]) rest
      else lineTokensGo none rest

/-- All identifier tokens of one line, in order. -/
def lineTokens (l : Chars) : List Chars := lineTokensGo none l

/-- Split on every occurrence of `sep`, keeping empty pieces, as JavaScript
`split` does with a one-character separator. -/
def splitOnCharGo (sep : Char) (cur : Chars) : Chars → List Chars
  | [] => [cur.reverse]
  | c :: rest =>
    if c = sep then cur.reverse :: splitOnCharGo sep [] rest
    else splitOnCharGo sep (c :: cur) rest

/-- JavaScript `s.split(sep)` for a single-character separator. -/
def splitOnChar (sep : Char) (t : Chars) : List Chars := splitOnCharGo sep [] t

/-- Camel-case decomposition: split before every uppercase letter.  A
zero-width split point at position 0 produces no leading empty piece,
matching the JavaScript lookahead-split behaviour. -/
def camelGo (cur : Chars) : Chars → List Chars
  | [] => [cur.reverse]
  | c :: rest =>
    if c.isUpper then cur.reverse :: camelGo [c] rest
    else camelGo (c :: cur) rest

/-- JavaScript split on a lookahead of an uppercase letter. -/
def camelSplit : Chars → List Chars
  | [] => [[]]
  | c :: rest => camelGo [c] rest

/-- Lower-casing of a whole token (JavaScript `toLowerCase`, ASCII range). -/
def lowerStr (t : Chars) : Chars := t.map Char.toLower

/-- Stop words discarded by the indexer, tested case-insensitively. -/
def stopWords : List Chars :=
  (["the", "and", "for", "function", "var", "let", "const", "if", "else",
    "while", "return", "this", "new", "try", "catch", "class", "import",
    "export"]).map (fun s => s.toList)

/-- Case-insensitive stop-word test. -/
def isStopWord (t : Chars) : Bool := stopWords.contains (lowerStr t)

/-- File extensions accepted by `buildSearchIndex`, tested case-insensitively
and anchored at the end of the path. -/
def indexedExts : List Chars :=
  (["js", "jsx", "ts", "tsx", "java", "kt", "swift", "c", "cpp", "h", "py",
    "rb", "go", "rs", "php", "html", "css", "md", "json", "yml", "yaml",
    "xml", "sh"]).map (fun s => s.toList)

/-- Whether a file path ends in one of the allow-listed extensions. -/
def allowedIndexExt (file : Chars) : Bool :=
  indexedExts.any (fun e => ('.' :: e).isSuffixOf (lowerStr file))

/-- JavaScript `s.includes(pattern)`: the pattern occurs as a contiguous
substring. -/
def strIncludes (pattern : Chars) : Chars → Bool
  | [] => pattern.isPrefixOf []
  | c :: rest => pattern.isPrefixOf (c :: rest) || strIncludes pattern rest

/-! ## Search index data model -/

/-- One posting of the search index: a file, an occurrence counter and a list
of 1-based line numbers. -/
structure Posting where
  file : Chars
  occurrences : Nat
  positions : List Nat
deriving DecidableEq, Repr

/-- A JavaScript object mapping tokens to postings lists, in insertion order. -/
abbrev TermMap := List (Chars × List Posting)

/-- The persisted search index: exact identifier postings and case-folded
sub-token postings. -/
structure SearchIndex where
  exactTerms : TermMap
  terms : TermMap
deriving DecidableEq, Repr

/-- Object property lookup. -/
def lookupTok : TermMap → Chars → Option (List Posting)
  | [], _ => none
  | (k, v) :: rest, t => if k = t then some v else lookupTok rest t

/-- Object property write: overwrite an existing key in place, otherwise
append the new key in insertion order. -/
def setTok : TermMap → Chars → List Posting → TermMap
  | [], t, v => [(t, v)]
  | (k, w) :: rest, t, v =>
    if k = t then (k, v) :: rest else (k, w) :: setTok rest t v

/-- Mutate the first list element satisfying `p` (JavaScript
`array.find` followed by in-place mutation; no element changes if none
satisfies `p`). -/
def updateFirst (p : α → Bool) (f : α → α) : List α → List α
  | [] => []
  | x :: xs => if p x then f x :: xs else x :: updateFirst p f xs

/-! ## buildSearchIndex -/

/-- In-progress indexing state for one repository: the two postings maps and
the per-file `processedTerms` set of `(term, file)` keys. -/
structure BuildSt where
  exactTerms : TermMap
  terms : TermMap
  processed : List (Chars × Chars)
deriving Repr

/-- One occurrence of `tok` at `lineNo` of `file`, applied to the exact-terms
map: the first encounter of `(tok, file)` pushes a fresh posting and records
the key in `processedTerms`; later encounters increment the counter and
append the line number (duplicates included). -/
def exactStep (file : Chars) (lineNo : Nat) (tok : Chars) (idx : TermMap)
    (processed : List (Chars × Chars)) : TermMap × List (Chars × Chars) :=
  let cur := (lookupTok idx tok).getD []
  if (tok, file) ∉ processed then
    (setTok idx tok (cur ++ [⟨file, 1, [lineNo]⟩]), (tok, file) :: processed)
  else
    (setTok idx tok (updateFirst (fun e => e.file == file)
        (fun e => { e with occurrences := e.occurrences + 1,
                           positions := e.positions ++ [lineNo] }) cur),
     processed)

/-- One occurrence of sub-token `sub` at `lineNo` of `file`, applied to the
case-folded terms map: an existing posting for the file gets its counter
incremented and the line number appended only when not already present;
otherwise a fresh posting is pushed. -/
def termsStep (file : Chars) (lineNo : Nat) (sub : Chars) (idx : TermMap) : TermMap :=
  let key := lowerStr sub
  let cur := (lookupTok idx key).getD []
  match cur.find? (fun e => e.file == file) with
  | some _ =>
    setTok idx key (updateFirst (fun e => e.file == file)
      (fun e => { e with occurrences := e.occurrences + 1,
                         positions := if lineNo ∈ e.positions then e.positions
                                      else e.positions ++ [lineNo] }) cur)
  | none => setTok idx key (cur ++ [⟨file, 1, [lineNo]⟩])

/-- Processing of one extracted token: skip tokens shorter than 3 characters
or in the stop-word set, otherwise update exact terms and then every
camel-case and snake-case sub-token of length above 2. -/
def indexToken (file : Chars) (lineNo : Nat) (st : BuildSt) (tok : Chars) : BuildSt :=
  if tok.length < 3 || isStopWord tok then st
  else
    let ep := exactStep file lineNo tok st.exactTerms st.processed
    let subTerms := (camelSplit tok).filter (fun t => 2 < t.length)
    let snakeTerms := (splitOnChar '_' tok).filter (fun t => 2 < t.length)
    let terms := (subTerms ++ snakeTerms).foldl
      (fun m sub => termsStep file lineNo sub m) st.terms
    ⟨ep.1, terms, ep.2⟩

/-- Indexing of one file: lines are enumerated (line numbers are 1-based) and
every identifier token of every line is processed; the `processedTerms` set
starts empty for each file. -/
def indexFile (file : Chars) (lines : List Chars) (exact terms : TermMap) :
    TermMap × TermMap :=
  let stF := (lines.enum).foldl (fun st il =>
      (lineTokens il.2).foldl (fun st tok => indexToken file (il.1 + 1) st tok) st)
    (⟨exact, terms, []⟩ : BuildSt)
  (stF.exactTerms, stF.terms)

/-- A file of the scanned structure: recorded size and the result of reading
it as text split into lines (`none` when the read fails). -/
structure TreeFile where
  size : Nat
  lines : Option (List Chars)
deriving DecidableEq, Repr

/-- The `structure.files` object: relative path to file entry, insertion order. -/
abbrev FileTree := List (Chars × TreeFile)

/-- Per-file step of `buildSearchIndex`: a file is skipped when its recorded
size exceeds 1 MiB, when its extension is not allow-listed, or when reading
it fails; otherwise its lines are tokenized into both postings maps. -/
def buildFileStep (idx : TermMap × TermMap) (ft : Chars × TreeFile) :
    TermMap × TermMap :=
  if 1048576 < ft.2.size then idx
  else if ¬ allowedIndexExt ft.1 then idx
  else
    match ft.2.lines with
    | none => idx
    | some ls => indexFile ft.1 ls idx.1 idx.2

/-- `buildSearchIndex`: fold the per-file step over every file of the
scanned structure. -/
def buildSearchIndex (tree : FileTree) : SearchIndex :=
  let p := tree.foldl buildFileStep ([], [])
  ⟨p.1, p.2⟩

/-! ## Soundness predicates for the built index

These predicates state what the theorems below establish about the maps
produced by `buildSearchIndex`. -/

/-- Soundness of one exact posting's positions against the file's lines:
every recorded position is a valid 1-based line number whose line contains
the token. -/
def ExactPosOk (ls : List Chars) (t : Chars) (e : Posting) : Prop :=
  ∀ p ∈ e.positions, ∃ i, i < ls.length ∧ p = i + 1 ∧
    t ∈ lineTokens (ls.getD i [])

/-- Provenance of one exact posting: its file is an indexed entry of the
tree (at most 1 MiB, allow-listed extension, readable) and its positions
are sound against that file's lines. -/
def ExactProv (tree : FileTree) (t : Chars) (e : Posting) : Prop :=
  ∃ sz ls, (e.file, ⟨sz, some ls⟩) ∈ tree ∧ sz ≤ 1048576 ∧
    allowedIndexExt e.file = true ∧ ExactPosOk ls t e

/-- Provenance of one sub-token posting: its file is an indexed entry of the
tree. -/
def TermProv (tree : FileTree) (e : Posting) : Prop :=
  ∃ sz ls, (e.file, ⟨sz, some ls⟩) ∈ tree ∧ sz ≤ 1048576 ∧
    allowedIndexExt e.file = true

/-- Invariant of the finished exact-terms map: per-token postings name
pairwise-distinct files drawn from `seen`, occurrence counters equal
position counts, and positions are sound. -/
def ExactInv (tree : FileTree) (seen : List Chars) (m : TermMap) : Prop :=
  ∀ t ps, lookupTok m t = some ps →
    (ps.map Posting.file).Nodup ∧
    ∀ e ∈ ps, e.occurrences = e.positions.length ∧ e.file ∈ seen ∧
      ExactProv tree t e

/-- Invariant of the finished sub-token map: per-token postings name
pairwise-distinct files drawn from `seen`, and occurrence counters dominate
position counts. -/
def TermsInv (tree : FileTree) (seen : List Chars) (m : TermMap) : Prop :=
  ∀ t ps, lookupTok m t = some ps →
    (ps.map Posting.file).Nodup ∧
    ∀ e ∈ ps, e.positions.length ≤ e.occurrences ∧ e.file ∈ seen ∧
      TermProv tree e

/-- Invariant of the exact-terms map while file `f` with lines `ls` is being
indexed: postings of `f` are tracked by the `processedTerms` set and sound
against `ls`; postings of other files keep the finished invariant. -/
def ExactInvFile (tree : FileTree) (seen : List Chars) (f : Chars)
    (ls : List Chars) (m : TermMap) (processed : List (Chars × Chars)) : Prop :=
  ∀ t ps, lookupTok m t = some ps →
    (ps.map Posting.file).Nodup ∧
    ∀ e ∈ ps, e.occurrences = e.positions.length ∧
      ((e.file = f ∧ (t, f) ∈ processed ∧ ExactPosOk ls t e) ∨
       (e.file ∈ seen ∧ ExactProv tree t e))

/-- Invariant of the sub-token map while file `f` is being indexed. -/
def TermsInvFile (tree : FileTree) (seen : List Chars) (f : Chars)
    (m : TermMap) : Prop :=
  ∀ t ps, lookupTok m t = some ps →
    (ps.map Posting.file).Nodup ∧
    ∀ e ∈ ps, e.positions.length ≤ e.occurrences ∧
      (e.file = f ∨ (e.file ∈ seen ∧ TermProv tree e))

/-! ## Search engine data model -/

/-- One line of a context window. -/
structure ContextLine where
  line : Nat
  text : Chars
  isMatch : Bool
deriving DecidableEq, Repr

/-- One line match with its context window. -/
structure SearchMatch where
  line : Nat
  content : Chars
  context : List ContextLine
deriving DecidableEq, Repr

/-- One result record of `searchCodeWithCache`. -/
structure SearchResult where
  category : Chars
  repo : Chars
  file : Chars
  lineMatches : List SearchMatch
deriving DecidableEq, Repr

/-- Context-window construction shared verbatim by the cached paths and the
fallback scan: three lines before and after the 0-based line index `i`,
clamped to the file. -/
def contextFor (lines : List Chars) (i : Nat) : SearchMatch :=
  let start := i - 3
  let stop := min (lines.length - 1) (i + 3)
  { line := i + 1,
    content := lines.getD i [],
    context := ((lines.drop start).take (stop + 1 - start)).enum.map (fun it =>
      { line := start + it.1 + 1, text := it.2, isMatch := start + it.1 == i }) }

/-- The state of one repository as seen by one search request:
whether its working tree exists on disk, the result of `isCacheValid`, the
search index loaded from the cache (`none` when the document is missing or
malformed), file reads relative to the working tree (`none` for binary or
unreadable files), and the fallback directory enumeration (`none` when the
enumeration itself raises, e.g. the tree vanished after the existence
check). -/
structure RepoEnv where
  existsOnDisk : Bool
  cacheValid : Bool
  searchIndex : Option SearchIndex
  readFile : Chars → Option (List Chars)
  scanFiles : Option (List Chars)

/-- Suffix of `s` following the first occurrence of `piece`, when any. -/
def dropToMatch (piece : Chars) : Chars → Option Chars
  | [] => if piece = [] then some [] else none
  | c :: rest =>
    if piece.isPrefixOf (c :: rest) then some ((c :: rest).drop piece.length)
    else dropToMatch piece rest

/-- Unanchored matching of the pieces of a star pattern, in order. -/
def piecesMatch : List Chars → Chars → Bool
  | [], _ => true
  | piece :: rest, s =>
    match dropToMatch piece s with
    | none => false
    | some s' => piecesMatch rest s'

/-- The file-pattern test of the cached paths: the pattern with every star
replaced by a wildcard, tested unanchored against the path.  Non-star
characters are modelled as literals. -/
def fileRegexTest (filePattern file : Chars) : Bool :=
  piecesMatch (splitOnChar '*' filePattern) file

/-- The literal star pattern (the default file pattern). -/
def starPat : Chars := "*".toList

/-- A posting's file passes when the file pattern is the default star or the
wildcard test accepts the path. -/
def fileAllowed (filePattern file : Chars) : Bool :=
  filePattern == starPat || fileRegexTest filePattern file

/-- Case-insensitive matching of the query pattern against a sub-token key,
modelling the fuzzy regex test for metacharacter-free patterns. -/
def termFuzzyTest (pattern term : Chars) : Bool :=
  strIncludes (lowerStr pattern) (lowerStr term)

/-- The per-posting result construction shared by the cached exact and fuzzy
paths: filter by file pattern, read the live file, and emit one single-match
record per recorded position, skipping invalid line numbers. -/
def postingResults (filePattern category repo : Chars) (env : RepoEnv)
    (m : Posting) : List SearchResult :=
  if ¬ fileAllowed filePattern m.file then []
  else
    match env.readFile m.file with
    | none => []
    | some lines =>
      m.positions.filterMap (fun position =>
        if position = 0 || lines.length < position then none
        else some { category := category, repo := repo, file := m.file,
                    lineMatches := [contextFor lines (position - 1)] })

/-- The cached exact-term lookup: all postings of the pattern key. -/
def exactResults (pattern filePattern category repo : Chars) (env : RepoEnv)
    (idx : SearchIndex) : List SearchResult :=
  match lookupTok idx.exactTerms pattern with
  | none => []
  | some ps => ps.flatMap (postingResults filePattern category repo env)

/-- The cached fuzzy fallback: postings of every sub-token key matching the
pattern case-insensitively. -/
def fuzzyResults (pattern filePattern category repo : Chars) (env : RepoEnv)
    (idx : SearchIndex) : List SearchResult :=
  idx.terms.flatMap (fun tp =>
    if termFuzzyTest pattern tp.1 then
      tp.2.flatMap (postingResults filePattern category repo env)
    else [])

/-- The direct fallback scan of one file: read it, collect a context-window
match for every line containing the pattern as a substring, and emit one
merged record when any line matched; unreadable files are skipped. -/
def fallbackFileResult (pattern category repo : Chars) (env : RepoEnv)
    (file : Chars) : Option SearchResult :=
  match env.readFile file with
  | none => none
  | some lines =>
    let matchingLines := (lines.enum).filterMap (fun il =>
      if strIncludes pattern il.2 then some (contextFor lines il.1) else none)
    if matchingLines.isEmpty then none
    else some { category := category, repo := repo, file := file,
                lineMatches := matchingLines }

/-- Processing of one repository inside `searchCodeWithCache`, threading the
global accumulated results: absent trees are skipped; with a valid cache the
exact lookup runs first and the fuzzy fallback only when the accumulated
global list is still empty; otherwise the direct scan runs over the
enumerated files, and an enumeration failure raises out of the loop
(`none`). -/
def repoStep (pattern filePattern category : Chars) (acc : List SearchResult)
    (repo : Chars) (env : RepoEnv) : Option (List SearchResult) :=
  if ¬ env.existsOnDisk then some acc
  else if env.cacheValid then
    match env.searchIndex with
    | none => some acc
    | some idx =>
      let acc1 := acc ++ exactResults pattern filePattern category repo env idx
      if acc1.length = 0 then
        some (acc1 ++ fuzzyResults pattern filePattern category repo env idx)
      else some acc1
  else
    match env.scanFiles with
    | none => none
    | some files =>
      some (acc ++ files.filterMap (fallbackFileResult pattern category repo env))

/-- The repository loop; a raised error (`none`) aborts the remaining
repositories. -/
def searchRepos (pattern filePattern category : Chars) :
    List (Chars × RepoEnv) → List SearchResult → Option (List SearchResult)
  | [], acc => some acc
  | re :: rest, acc =>
    match repoStep pattern filePattern category acc re.1 re.2 with
    | none => none
    | some acc' => searchRepos pattern filePattern category rest acc'

/-- The environment of a repository named by a filter but absent from the
registry: its path does not exist on disk. -/
def defaultRepoEnv : RepoEnv := ⟨false, false, none, fun _ => none, none⟩

/-- The repository registry joined with per-repository search state. -/
abbrev RepoWorld := List (Chars × List (Chars × RepoEnv))

/-- Registry lookup of a repository inside one category. -/
def lookupRepo : List (Chars × RepoEnv) → Chars → Option RepoEnv
  | [], _ => none
  | (k, v) :: rest, r => if k = r then some v else lookupRepo rest r

/-- Registry lookup of a category. -/
def lookupCategory : RepoWorld → Chars → Option (List (Chars × RepoEnv))
  | [], _ => none
  | (k, v) :: rest, c => if k = c then some v else lookupCategory rest c

/-- The category loop of `searchCodeWithCache`: unknown categories are
skipped, a repository filter selects a single name, and a raised error
aborts everything. -/
def searchCategories (pattern filePattern : Chars) (world : RepoWorld)
    (repoFilter : Option Chars) :
    List Chars → List SearchResult → Option (List SearchResult)
  | [], acc => some acc
  | c :: cs, acc =>
    match lookupCategory world c with
    | none => searchCategories pattern filePattern world repoFilter cs acc
    | some repoList =>
      let selected := match repoFilter with
        | some r => [(r, (lookupRepo repoList r).getD defaultRepoEnv)]
        | none => repoList
      match searchRepos pattern filePattern c selected acc with
      | none => none
      | some acc' => searchCategories pattern filePattern world repoFilter cs acc'

/-- `searchCodeWithCache`: iterate the selected categories and repositories;
the enclosing try/catch turns any raised error into an empty result list. -/
def searchCodeWithCache (pattern filePattern : Chars)
    (categoryFilter repoFilter : Option Chars) (world : RepoWorld) :
    List SearchResult :=
  let categories := match categoryFilter with
    | some c => [c]
    | none => world.map (fun cw => cw.1)
  match searchCategories pattern filePattern world repoFilter categories [] with
  | none => []
  | some rs => rs

/-! ## Cache validity -/

/-- The part of the cached metadata document that cache validation reads. -/
structure CachedMetadata where
  lastCommitHash : Chars
deriving DecidableEq, Repr

/-- The filesystem and git state observed by one `isCacheValid` call:
whether `metadata.json` exists, the parse result of reading it (`none` when
the read or the parse raises), and the trimmed output of resolving the
repository's current revision (`none` when git raises, e.g. the directory
is not a repository or an I/O error occurs). -/
structure CacheFsView where
  metadataExists : Bool
  parsedMetadata : Option CachedMetadata
  liveRevision : Option Chars

/-- `isCacheValid`: false when the metadata document is absent; otherwise
parse it and compare the stored commit hash against the live revision, any
raised error being caught and turned into false. -/
def isCacheValid (st : CacheFsView) : Bool :=
  if ¬ st.metadataExists then false
  else
    match st.parsedMetadata with
    | none => false
    | some md =>
      match st.liveRevision with
      | none => false
      | some h => md.lastCommitHash == h

/-! ## Result limiter (modelled from the spec)

The snapshot's `searchCodeWithCache` and its `search_code` handler return
the raw result list; the result-limiting layer (maxResults, ranking,
truncation reporting) is recorded in the repository only by its change
description and by the spec.  The definitions below model that layer from
the spec's words. -/

/-- The limited response shape of the exposed search operation. -/
structure LimitedSearchResponse where
  results : List SearchResult
  truncated : Bool
  omittedCount : Nat
deriving DecidableEq, Repr

/-- Modelled from the spec: merging step of the Result Limiter; a group whose
(category, repo, file) triple is already present has its matches appended to
the existing record, otherwise it is appended as a new record. -/
def mergeInto (acc : List SearchResult) (r : SearchResult) : List SearchResult :=
  if (acc.find? (fun s =>
      s.category == r.category && s.repo == r.repo && s.file == r.file)).isSome then
    updateFirst (fun s =>
        s.category == r.category && s.repo == r.repo && s.file == r.file)
      (fun s => { s with lineMatches := s.lineMatches ++ r.lineMatches }) acc
  else acc ++ [r]

/-- Modelled from the spec: groups merged per (category, repo, file), in
first-appearance order. -/
def mergeGroups (rs : List SearchResult) : List SearchResult :=
  rs.foldl mergeInto []

/-- Modelled from the spec: stable descending insertion by match count;
a group moves ahead only of groups with strictly fewer matches. -/
def insertRanked (g : SearchResult) : List SearchResult → List SearchResult
  | [] => [g]
  | h :: t =>
    if h.lineMatches.length ≤ g.lineMatches.length then g :: h :: t
    else h :: insertRanked g t

/-- Modelled from the spec: files ranked descending by number of matches,
ties broken by stable original discovery order. -/
def rankByMatches : List SearchResult → List SearchResult
  | [] => []
  | g :: gs => insertRanked g (rankByMatches gs)

/-- Modelled from the spec: the Result Limiter merges groups per file, ranks
them, caps the list at `maxResults` and reports how many groups were
dropped. -/
def limitSearchResults (maxResults : Nat) (groups : List SearchResult) :
    LimitedSearchResponse :=
  let merged := mergeGroups groups
  { results := (rankByMatches merged).take maxResults,
    truncated := decide (maxResults < merged.length),
    omittedCount := merged.length - maxResults }

/-- Modelled from the spec: the exposed search operation, the raw search
composed with the Result Limiter. -/
def searchCodeLimited (pattern filePattern : Chars)
    (categoryFilter repoFilter : Option Chars) (world : RepoWorld)
    (maxResults : Nat) : LimitedSearchResponse :=
  limitSearchResults maxResults
    (searchCodeWithCache pattern filePattern categoryFilter repoFilter world)

/-! ## Concrete scenarios used by witnesses and counterexamples -/

/-- The query pattern used in the concrete scenarios. -/
def fooPat : Chars := "foo".toList

/-- A source file name with an allow-listed extension. -/
def ajs : Chars := "a.js".toList

/-- A second source file name. -/
def bjs : Chars := "b.js".toList

/-- A text file name outside the indexing allow-list. -/
def btxt : Chars := "b.txt".toList

/-- A category name. -/
def catC : Chars := "c".toList

/-- A first repository name. -/
def repoR1 : Chars := "r1".toList

/-- A second repository name. -/
def repoR2 : Chars := "r2".toList

/-- A one-token line. -/
def fooLine : Chars := "foo".toList

/-- A line holding the same token twice. -/
def fooFooLine : Chars := "foo foo".toList

/-- A line containing `foo` only as a proper prefix of a longer identifier. -/
def foobarLine : Chars := "foobar hi".toList

/-- Index of a repository whose exact terms contain the pattern. -/
def idxExactFoo : SearchIndex := ⟨[(fooPat, [⟨ajs, 1, [1]⟩])], []⟩

/-- Index of a repository whose exact terms miss the pattern but whose
sub-token index matches it fuzzily. -/
def idxFuzzyFoo : SearchIndex := ⟨[], [("foobar".toList, [⟨bjs, 1, [1]⟩])]⟩

/-- Repository with a valid cache producing one exact hit. -/
def envExactFoo : RepoEnv :=
  ⟨true, true, some idxExactFoo, fun _ => some [fooLine], none⟩

/-- Repository with a valid cache producing a fuzzy hit only. -/
def envFuzzyFoo : RepoEnv :=
  ⟨true, true, some idxFuzzyFoo, fun _ => some [foobarLine], none⟩

/-- Two cached repositories: the first has an exact hit, the second only a
fuzzy one. -/
def worldTwoRepos : RepoWorld :=
  [(catC, [(repoR1, envExactFoo), (repoR2, envFuzzyFoo)])]

/-- Repository whose working tree exists, whose cache is invalid, and whose
fallback directory enumeration raises. -/
def envScanThrows : RepoEnv :=
  ⟨true, false, none, fun _ => some [fooLine], none⟩

/-- A healthy repository followed by one whose fallback enumeration raises. -/
def worldWithFailure : RepoWorld :=
  [(catC, [(repoR1, envExactFoo), (repoR2, envScanThrows)])]

/-- The healthy repository alone. -/
def worldHealthy : RepoWorld := [(catC, [(repoR1, envExactFoo)])]

/-- Cached index holding two recorded positions for one file. -/
def idxTwoPositions : SearchIndex := ⟨[(fooPat, [⟨ajs, 2, [1, 2]⟩])], []⟩

/-- Repository whose cached exact lookup emits one record per position. -/
def envTwoPositions : RepoEnv :=
  ⟨true, true, some idxTwoPositions, fun _ => some [fooLine, fooLine], none⟩

/-- File-content lookup over a scanned tree. -/
def lookupFileTree : FileTree → Chars → Option TreeFile
  | [], _ => none
  | (k, v) :: rest, f => if k = f then some v else lookupFileTree rest f

/-- Reading a file of a scanned tree as the live working tree. -/
def treeReadFile (tree : FileTree) : Chars → Option (List Chars) :=
  fun f =>
    match lookupFileTree tree f with
    | none => none
    | some tf => tf.lines

/-- The repository state with a valid cache freshly built from `tree`. -/
def cachedEnvOf (tree : FileTree) : RepoEnv :=
  ⟨true, true, some (buildSearchIndex tree), treeReadFile tree, none⟩

/-- The same repository state with its cache deleted: the direct scan
enumerates the same tree. -/
def fallbackEnvOf (tree : FileTree) : RepoEnv :=
  ⟨true, false, none, treeReadFile tree, some (tree.map (fun ft => ft.1))⟩

/-- A tree whose only file is outside the indexing allow-list. -/
def treeTxtOnly : FileTree := [(btxt, ⟨5, some [fooLine]⟩)]

/-- A tree whose only file is an indexed source file containing the pattern. -/
def treeJsFoo : FileTree := [(ajs, ⟨10, some [fooLine]⟩)]

/-- A tree whose only file has size exactly one mebibyte. -/
def treeOneMiB : FileTree := [(ajs, ⟨1048576, some [fooLine]⟩)]

/-- A tree whose only file repeats one token twice on one line. -/
def treeDupToken : FileTree := [(ajs, ⟨10, some [fooFooLine]⟩)]

/-- 120 distinct two-character file names. -/
def files120 : List Chars :=
  (List.range 120).map (fun n => [Char.ofNat (48 + n / 12), Char.ofNat (48 + n % 12)])

/-- A repository with an invalid cache whose fallback scan matches 120
files. -/
def envBig : RepoEnv :=
  ⟨true, false, none, fun _ => some [fooLine], some files120⟩

/-- A world whose search yields 120 per-file match groups. -/
def worldBig : RepoWorld := [(catC, [(repoR1, envBig)])]

/-! # Theorems -/

/-- C3: `isCacheValid` returns true exactly when the metadata document
exists, parses, and its stored revision identifier equals the live current
revision; absent metadata, a parse failure, an error retrieving the live
revision, or a mismatch all give false.  In particular the state written by
a successful rebuild (stored hash equal to the live one) validates, and a
revision change without a rebuild invalidates. -/
theorem isCacheValid_spec :
    (∀ st : CacheFsView, isCacheValid st = true ↔
      st.metadataExists = true ∧ ∃ md, st.parsedMetadata = some md ∧
        ∃ h, st.liveRevision = some h ∧ md.lastCommitHash = h) ∧
    (∀ md : CachedMetadata,
      isCacheValid ⟨true, some md, some md.lastCommitHash⟩ = true) ∧
    (∀ (md : CachedMetadata) (h : Chars), md.lastCommitHash ≠ h →
      isCacheValid ⟨true, some md, some h⟩ = false) := by
  refine ⟨fun st => ?_, fun md => ?_, fun md h hne => ?_⟩
  · obtain ⟨me, pm, lr⟩ := st
    cases me with
    | false => simp [isCacheValid]
    | true =>
      cases pm with
      | none => simp [isCacheValid]
      | some md =>
        cases lr with
        | none => simp [isCacheValid]
        | some h => simp [isCacheValid]
  · simp [isCacheValid]
  · simp [isCacheValid, hne]

/-- Witness for `isCacheValid_spec` at a concrete mismatched state. -/
theorem isCacheValid_spec_witness :
    isCacheValid ⟨true, some ⟨"a".toList⟩, some ("b".toList)⟩ = false :=
  isCacheValid_spec.2.2 ⟨"a".toList⟩ ("b".toList) (by decide)

/-- C2 counterexample: with two cached repositories, the second repository's
exact lookup produces zero results, yet its fuzzy fallback is not attempted
because the first repository already contributed to the global result list;
searching the second repository alone does produce its fuzzy hit. -/
theorem fuzzy_trigger_not_per_repo_cex :
    (searchCodeWithCache fooPat starPat none none worldTwoRepos).map
        (fun r => r.repo) = [repoR1] ∧
    lookupTok idxFuzzyFoo.exactTerms fooPat = none ∧
    (searchCodeWithCache fooPat starPat none (some repoR2) worldTwoRepos).map
        (fun r => r.repo) = [repoR2] := by decide

/-- C4 counterexample: when one repository's fallback enumeration raises
(tree deleted mid-query), the whole query returns the empty list, discarding
the other repository's results, which that repository alone does produce. -/
theorem repo_failure_aborts_cex :
    searchCodeWithCache fooPat starPat none none worldWithFailure = [] ∧
    (searchCodeWithCache fooPat starPat none none worldHealthy).map
        (fun r => r.repo) = [repoR1] := by decide

/-- C5 counterexample: over the same working tree, the cached search returns
nothing for a pattern occurring only in a non-indexed text file, while the
direct fallback scan returns the match. -/
theorem fallback_cached_mismatch_cex :
    searchCodeWithCache fooPat starPat none none
        [(catC, [(repoR1, cachedEnvOf treeTxtOnly)])] = [] ∧
    (searchCodeWithCache fooPat starPat none none
        [(catC, [(repoR1, fallbackEnvOf treeTxtOnly)])]).map
        (fun r => (r.file, r.lineMatches.map (fun m => m.line))) =
      [(btxt, [1])] := by decide

/-- C7 counterexample: the cached exact path emits one record per recorded
position, so two records of one response share the same
(category, repo, file) triple. -/
theorem cached_duplicate_records_cex :
    (searchCodeWithCache fooPat starPat none none
        [(catC, [(repoR1, envTwoPositions)])]).map
        (fun r => (r.category, r.repo, r.file)) =
      [(catC, repoR1, ajs), (catC, repoR1, ajs)] := by decide

/-- C8 counterexample: a file whose recorded size is exactly one mebibyte is
indexed (the guard skips only strictly larger files), so it does contribute
postings. -/
theorem size_boundary_cex :
    lookupTok (buildSearchIndex treeOneMiB).exactTerms fooPat =
      some [⟨ajs, 1, [1]⟩] := by decide

/-- C9 counterexample: a token occurring twice on one line of one file gets
its line number appended twice to the exact posting (the update branch
always appends), so `occurrences` equals the positions length instead of
exceeding it. -/
theorem exact_position_always_appended_cex :
    lookupTok (buildSearchIndex treeDupToken).exactTerms fooPat =
      some [⟨ajs, 2, [1, 1]⟩] ∧
    ([1, 1] : List Nat).length = 2 := by decide

/-- Helper: unfolding of a single-category, unfiltered search. -/
theorem searchCodeWithCache_single (pattern cat : Chars)
    (rs : List (Chars × RepoEnv)) :
    searchCodeWithCache pattern starPat none none [(cat, rs)] =
      match searchRepos pattern starPat cat rs [] with
      | none => []
      | some out => out := by
  cases h : searchRepos pattern starPat cat rs [] <;>
    simp [searchCodeWithCache, searchCategories, lookupCategory, h]

/-- Helper: a repository whose working tree is absent is skipped by the
repository loop. -/
theorem searchRepos_skip_absent (pattern filePattern category : Chars)
    (l1 l2 : List (Chars × RepoEnv)) (r : Chars) (env : RepoEnv)
    (hex : env.existsOnDisk = false) (acc : List SearchResult) :
    searchRepos pattern filePattern category (l1 ++ (r, env) :: l2) acc =
      searchRepos pattern filePattern category (l1 ++ l2) acc := by
  induction l1 generalizing acc with
  | nil => simp [searchRepos, repoStep, hex]
  | cons hd tl ih =>
    simp only [List.cons_append, searchRepos]
    cases repoStep pattern filePattern category acc hd.1 hd.2 with
    | none => rfl
    | some acc' => exact ih acc'

/-- Helper: a raising fallback enumeration anywhere in the repository list
makes the whole loop raise. -/
theorem searchRepos_throw (pattern filePattern category : Chars)
    (l1 l2 : List (Chars × RepoEnv)) (r : Chars) (env : RepoEnv)
    (hex : env.existsOnDisk = true) (hcv : env.cacheValid = false)
    (hsf : env.scanFiles = none) (acc : List SearchResult) :
    searchRepos pattern filePattern category (l1 ++ (r, env) :: l2) acc = none := by
  induction l1 generalizing acc with
  | nil => simp [searchRepos, repoStep, hex, hcv, hsf]
  | cons hd tl ih =>
    simp only [List.cons_append, searchRepos]
    cases repoStep pattern filePattern category acc hd.1 hd.2 with
    | none => rfl
    | some acc' => exact ih acc'

/-- C4 amended: a repository failure detected at the working-tree existence
check never aborts the query — the absent repository contributes zero
results and every other repository's results are unchanged; but an
exception raised during a repository's fallback directory enumeration
aborts the whole query, which then returns the empty list. -/
theorem repo_failure_isolation_amended :
    (∀ (pattern cat : Chars) (l1 l2 : List (Chars × RepoEnv)) (r : Chars)
        (env : RepoEnv), env.existsOnDisk = false →
      searchCodeWithCache pattern starPat none none
          [(cat, l1 ++ (r, env) :: l2)] =
        searchCodeWithCache pattern starPat none none [(cat, l1 ++ l2)]) ∧
    (∀ (pattern cat : Chars) (l1 l2 : List (Chars × RepoEnv)) (r : Chars)
        (env : RepoEnv), env.existsOnDisk = true → env.cacheValid = false →
        env.scanFiles = none →
      searchCodeWithCache pattern starPat none none
          [(cat, l1 ++ (r, env) :: l2)] = []) := by
  constructor
  · intro pattern cat l1 l2 r env hex
    rw [searchCodeWithCache_single, searchCodeWithCache_single,
        searchRepos_skip_absent _ _ _ _ _ _ _ hex]
  · intro pattern cat l1 l2 r env hex hcv hsf
    rw [searchCodeWithCache_single, searchRepos_throw _ _ _ _ _ _ _ hex hcv hsf]

/-- Witness for `repo_failure_isolation_amended` at concrete worlds. -/
theorem repo_failure_isolation_amended_witness :
    (searchCodeWithCache fooPat starPat none none
        [(catC, [(repoR1, envExactFoo), (repoR2, defaultRepoEnv)])] =
      searchCodeWithCache fooPat starPat none none
        [(catC, [(repoR1, envExactFoo)])]) ∧
    searchCodeWithCache fooPat starPat none none
        [(catC, [(repoR1, envScanThrows)])] = [] :=
  ⟨repo_failure_isolation_amended.1 fooPat catC [(repoR1, envExactFoo)] []
      repoR2 defaultRepoEnv (by decide),
   repo_failure_isolation_amended.2 fooPat catC [] [] repoR1 envScanThrows
      (by decide) (by decide) (by decide)⟩

/-- C2 amended: for a repository with an existing working tree, a valid
cache and a loaded index, the fuzzy fallback contributes exactly when the
global accumulated result list — all previously processed repositories'
results together with this repository's exact-term results — is still
empty; consequently exact results and fuzzy results of different
repositories can be mixed in one query. -/
theorem fuzzy_trigger_characterization
    (pattern filePattern category repo : Chars) (acc : List SearchResult)
    (idx : SearchIndex) (rf : Chars → Option (List Chars))
    (sf : Option (List Chars)) :
    repoStep pattern filePattern category acc repo
        ⟨true, true, some idx, rf, sf⟩ =
      some (if acc ++ exactResults pattern filePattern category repo
                ⟨true, true, some idx, rf, sf⟩ idx = [] then
              (acc ++ exactResults pattern filePattern category repo
                  ⟨true, true, some idx, rf, sf⟩ idx) ++
                fuzzyResults pattern filePattern category repo
                  ⟨true, true, some idx, rf, sf⟩ idx
            else acc ++ exactResults pattern filePattern category repo
                ⟨true, true, some idx, rf, sf⟩ idx) := by
  simp [repoStep, List.length_eq_zero]
  split <;> simp [*]

/-- Helper: membership in a ranked insertion. -/
theorem mem_insertRanked (g x : SearchResult) (l : List SearchResult) :
    x ∈ insertRanked g l ↔ x = g ∨ x ∈ l := by
  induction l with
  | nil => simp [insertRanked]
  | cons h t ih =>
    simp only [insertRanked]
    split
    · simp [List.mem_cons]
    · simp only [List.mem_cons, ih]
      tauto

/-- Helper: ranked insertion grows the length by one. -/
theorem length_insertRanked (g : SearchResult) (l : List SearchResult) :
    (insertRanked g l).length = l.length + 1 := by
  induction l with
  | nil => rfl
  | cons h t ih =>
    simp only [insertRanked]
    split
    · rfl
    · simp [ih]

/-- Helper: ranking preserves the length. -/
theorem length_rankByMatches (l : List SearchResult) :
    (rankByMatches l).length = l.length := by
  induction l with
  | nil => rfl
  | cons g gs ih => simp [rankByMatches, length_insertRanked, ih]

/-- Helper: ranked insertion preserves descending order by match count. -/
theorem pairwise_insertRanked (g : SearchResult) (l : List SearchResult)
    (hl : l.Pairwise (fun a b => b.lineMatches.length ≤ a.lineMatches.length)) :
    (insertRanked g l).Pairwise
      (fun a b => b.lineMatches.length ≤ a.lineMatches.length) := by
  induction l with
  | nil => simp [insertRanked]
  | cons h t ih =>
    rw [List.pairwise_cons] at hl
    obtain ⟨hh, ht⟩ := hl
    simp only [insertRanked]
    split
    · rename_i hle
      rw [List.pairwise_cons]
      refine ⟨fun x hx => ?_, List.pairwise_cons.2 ⟨hh, ht⟩⟩
      rcases List.mem_cons.1 hx with rfl | hx
      · exact hle
      · exact le_trans (hh x hx) hle
    · rename_i hgt
      rw [List.pairwise_cons]
      refine ⟨fun x hx => ?_, ih ht⟩
      rcases (mem_insertRanked g x t).1 hx with rfl | hx
      · omega
      · exact hh x hx

/-- Helper: the ranked list is descending by match count. -/
theorem pairwise_rankByMatches (l : List SearchResult) :
    (rankByMatches l).Pairwise
      (fun a b => b.lineMatches.length ≤ a.lineMatches.length) := by
  induction l with
  | nil => simp [rankByMatches]
  | cons g gs ih => exact pairwise_insertRanked g _ ih

/-- Helper: ranked insertion is stable — restricted to one match count it
prepends the new group exactly when that group has the count. -/
theorem filter_insertRanked (n : Nat) (g : SearchResult) (l : List SearchResult) :
    (insertRanked g l).filter (fun x => x.lineMatches.length == n) =
      if g.lineMatches.length = n then
        g :: l.filter (fun x => x.lineMatches.length == n)
      else l.filter (fun x => x.lineMatches.length == n) := by
  induction l with
  | nil =>
    simp only [insertRanked, List.filter]
    split <;> simp_all
  | cons h t ih =>
    simp only [insertRanked]
    split
    · rename_i hle
      by_cases hg : g.lineMatches.length = n <;> simp [List.filter_cons, hg]
    · rename_i hgt
      by_cases hg : g.lineMatches.length = n
      · by_cases hh : h.lineMatches.length = n
        · omega
        · simp [List.filter_cons, hh, ih, hg]
      · by_cases hh : h.lineMatches.length = n <;>
          simp [List.filter_cons, hh, ih, hg]

/-- Helper: ranking is stable — restricted to one match count the ranked
list equals the input. -/
theorem filter_rankByMatches (n : Nat) (l : List SearchResult) :
    (rankByMatches l).filter (fun x => x.lineMatches.length == n) =
      l.filter (fun x => x.lineMatches.length == n) := by
  induction l with
  | nil => rfl
  | cons g gs ih =>
    simp only [rankByMatches]
    rw [filter_insertRanked, ih]
    by_cases hg : g.lineMatches.length = n <;> simp [List.filter_cons, hg]

/-- C6 (result limiter modelled from the spec): the returned result list is
ordered descending by the number of matches per file — so a 5-match group
always precedes a 2-match group — and ties keep the stable original
discovery order: restricted to any fixed match count the ranked list equals
the input list in order. -/
theorem ranking_sorted_stable (maxResults : Nat) (groups : List SearchResult) :
    ((limitSearchResults maxResults groups).results).Pairwise
      (fun a b => b.lineMatches.length ≤ a.lineMatches.length) ∧
    ∀ n : Nat,
      (rankByMatches groups).filter (fun x => x.lineMatches.length == n) =
        groups.filter (fun x => x.lineMatches.length == n) := by
  refine ⟨?_, fun n => filter_rankByMatches n groups⟩
  exact List.Pairwise.sublist (List.take_sublist _ _)
    (pairwise_rankByMatches (mergeGroups groups))

/-- C1 (result limiter modelled from the spec): with the default cap of 50,
when the merged pre-cap group count exceeds 50 the response holds exactly 50
groups, is marked truncated, and reports the excess as omitted; when the
pre-cap count is at most 50 the response is not truncated, omits nothing,
and returns every group. -/
theorem searchCodeLimited_cap_spec (pattern filePattern : Chars)
    (cf rf : Option Chars) (world : RepoWorld) :
    (50 < (mergeGroups
        (searchCodeWithCache pattern filePattern cf rf world)).length →
      (searchCodeLimited pattern filePattern cf rf world 50).results.length = 50 ∧
      (searchCodeLimited pattern filePattern cf rf world 50).truncated = true ∧
      (searchCodeLimited pattern filePattern cf rf world 50).omittedCount =
        (mergeGroups
          (searchCodeWithCache pattern filePattern cf rf world)).length - 50) ∧
    ((mergeGroups
        (searchCodeWithCache pattern filePattern cf rf world)).length ≤ 50 →
      (searchCodeLimited pattern filePattern cf rf world 50).results.length =
        (mergeGroups
          (searchCodeWithCache pattern filePattern cf rf world)).length ∧
      (searchCodeLimited pattern filePattern cf rf world 50).truncated = false ∧
      (searchCodeLimited pattern filePattern cf rf world 50).omittedCount = 0) := by
  constructor
  · intro h
    refine ⟨?_, ?_, ?_⟩
    · simp only [searchCodeLimited, limitSearchResults, List.length_take,
        length_rankByMatches]
      omega
    · simp [searchCodeLimited, limitSearchResults, h]
    · rfl
  · intro h
    refine ⟨?_, ?_, ?_⟩
    · simp only [searchCodeLimited, limitSearchResults, List.length_take,
        length_rankByMatches]
      omega
    · simp [searchCodeLimited, limitSearchResults, Nat.not_lt.2 h]
    · simp only [searchCodeLimited, limitSearchResults]
      omega

set_option maxRecDepth 100000 in
/-- Witness for `searchCodeLimited_cap_spec`: a fallback scan over 120
matching files yields 120 merged groups, and the limited response returns
exactly 50 of them, truncated, with 70 omitted. -/
theorem searchCodeLimited_cap_spec_witness :
    50 < (mergeGroups
        (searchCodeWithCache fooPat starPat none none worldBig)).length ∧
    (searchCodeLimited fooPat starPat none none worldBig 50).results.length = 50 ∧
    (searchCodeLimited fooPat starPat none none worldBig 50).truncated = true ∧
    (searchCodeLimited fooPat starPat none none worldBig 50).omittedCount = 70 := by
  have hlen : (mergeGroups
      (searchCodeWithCache fooPat starPat none none worldBig)).length = 120 := by
    decide
  have h50 : 50 < (mergeGroups
      (searchCodeWithCache fooPat starPat none none worldBig)).length := by
    omega
  obtain ⟨h1, h2, h3⟩ :=
    (searchCodeLimited_cap_spec fooPat starPat none none worldBig).1 h50
  exact ⟨h50, h1, h2, by omega⟩

/-- Helper: looking up the key just written. -/
theorem lookupTok_setTok_self (m : TermMap) (t : Chars) (v : List Posting) :
    lookupTok (setTok m t v) t = some v := by
  induction m with
  | nil => simp [setTok, lookupTok]
  | cons kv rest ih =>
    obtain ⟨k, w⟩ := kv
    simp only [setTok]
    by_cases h : k = t
    · simp [lookupTok, h]
    · simp [lookupTok, h, ih]

/-- Helper: writing one key leaves the others unchanged. -/
theorem lookupTok_setTok_ne (m : TermMap) (t t' : Chars) (v : List Posting)
    (h : t' ≠ t) : lookupTok (setTok m t v) t' = lookupTok m t' := by
  induction m with
  | nil =>
    simp only [setTok, lookupTok]
    rw [if_neg (fun he => h he.symm)]
  | cons kv rest ih =>
    obtain ⟨k, w⟩ := kv
    simp only [setTok]
    by_cases hk : k = t
    · rw [if_pos hk]
      subst hk
      simp only [lookupTok]
      rw [if_neg (fun he : k = t' => h he.symm),
          if_neg (fun he : k = t' => h he.symm)]
    · rw [if_neg hk]
      simp only [lookupTok]
      by_cases hk' : k = t'
      · rw [if_pos hk', if_pos hk']
      · rw [if_neg hk', if_neg hk', ih]

/-- Helper: an in-place mutation keeping a projection fixed keeps the mapped
projections of the whole list fixed. -/
theorem updateFirst_map_eq {α β : Type _} (p : α → Bool) (f : α → α)
    (g : α → β) (hg : ∀ a, g (f a) = g a) (l : List α) :
    (updateFirst p f l).map g = l.map g := by
  induction l with
  | nil => rfl
  | cons x xs ih =>
    simp only [updateFirst]
    split
    · simp [hg]
    · simp [ih]

/-- Helper: an element of a mutated list is an untouched original element or
the mutation of an original element satisfying the predicate. -/
theorem mem_updateFirst {α : Type _} (p : α → Bool) (f : α → α) (l : List α)
    (x : α) (h : x ∈ updateFirst p f l) :
    x ∈ l ∨ ∃ y ∈ l, p y = true ∧ x = f y := by
  induction l with
  | nil => simp [updateFirst] at h
  | cons a as ih =>
    simp only [updateFirst] at h
    split at h
    · rename_i hp
      rcases List.mem_cons.1 h with rfl | h
      · exact Or.inr ⟨a, List.mem_cons_self a as, hp, rfl⟩
      · exact Or.inl (List.mem_cons_of_mem _ h)
    · rcases List.mem_cons.1 h with rfl | h
      · exact Or.inl (List.mem_cons_self _ _)
      · rcases ih h with h' | ⟨y, hy, hp, hx⟩
        · exact Or.inl (List.mem_cons_of_mem _ h')
        · exact Or.inr ⟨y, List.mem_cons_of_mem _ hy, hp, hx⟩

/-- Helper: a left fold preserves any predicate its step preserves. -/
theorem foldl_preserve {α β : Type _} {P : β → Prop} (step : β → α → β)
    (l : List α) (init : β) (h0 : P init)
    (hstep : ∀ b a, a ∈ l → P b → P (step b a)) : P (l.foldl step init) := by
  induction l generalizing init with
  | nil => exact h0
  | cons x xs ih =>
    exact ih _ (hstep _ _ (List.mem_cons_self _ _) h0)
      (fun b a ha => hstep b a (List.mem_cons_of_mem _ ha))

/-- Helper: positions delivered by `enumFrom` are in range and consistent
with indexing. -/
theorem mem_enumFrom_getD {α : Type _} (d : α) :
    ∀ (l : List α) (n : Nat) (p : Nat × α), p ∈ l.enumFrom n →
      n ≤ p.1 ∧ p.1 - n < l.length ∧ l.getD (p.1 - n) d = p.2 := by
  intro l
  induction l with
  | nil => intro n p h; simp [List.enumFrom] at h
  | cons x xs ih =>
    intro n p h
    rw [List.enumFrom] at h
    rcases List.mem_cons.1 h with rfl | h
    · simp
    · obtain ⟨h1, h2, h3⟩ := ih (n + 1) p h
      refine ⟨by omega, by simp only [List.length_cons]; omega, ?_⟩
      have he : p.1 - n = (p.1 - (n + 1)) + 1 := by omega
      rw [he, List.getD_cons_succ]
      exact h3

/-- Helper: positions delivered by `enum` are in range and consistent with
indexing. -/
theorem mem_enum_getD {α : Type _} (d : α) (l : List α) (p : Nat × α)
    (h : p ∈ l.enum) : p.1 < l.length ∧ l.getD p.1 d = p.2 := by
  obtain ⟨h1, h2, h3⟩ := mem_enumFrom_getD d l 0 p h
  rw [Nat.sub_zero] at h2 h3
  exact ⟨h2, h3⟩

/-- Helper: every valid index appears in `enum` with its element. -/
theorem enum_mem_of_lt {α : Type _} (d : α) :
    ∀ (l : List α) (i : Nat), i < l.length → (i, l.getD i d) ∈ l.enum := by
  have general : ∀ (l : List α) (n i : Nat), i < l.length →
      (n + i, l.getD i d) ∈ l.enumFrom n := by
    intro l
    induction l with
    | nil => intro n i h; simp at h
    | cons x xs ih =>
      intro n i h
      cases i with
      | zero => simp [List.enumFrom]
      | succ j =>
        rw [List.enumFrom, List.getD_cons_succ]
        have := ih (n + 1) j (by simpa using h)
        have he : n + (j + 1) = (n + 1) + j := by omega
        rw [he]
        exact List.mem_cons_of_mem _ this
  intro l i h
  have hg := general l 0 i h
  rw [Nat.zero_add] at hg
  exact hg

/-- Helper: equation of `exactStep` on a first encounter. -/
theorem exactStep_eq_push (file : Chars) (lineNo : Nat) (tok : Chars)
    (m : TermMap) (processed : List (Chars × Chars))
    (hf : (tok, file) ∉ processed) :
    exactStep file lineNo tok m processed =
      (setTok m tok (((lookupTok m tok).getD []) ++ [⟨file, 1, [lineNo]⟩]),
       (tok, file) :: processed) := by
  simp only [exactStep]
  rw [if_pos hf]

/-- Helper: equation of `exactStep` on a repeated encounter. -/
theorem exactStep_eq_update (file : Chars) (lineNo : Nat) (tok : Chars)
    (m : TermMap) (processed : List (Chars × Chars))
    (hf : (tok, file) ∈ processed) :
    exactStep file lineNo tok m processed =
      (setTok m tok (updateFirst (fun e => e.file == file)
        (fun e => { e with occurrences := e.occurrences + 1,
                           positions := e.positions ++ [lineNo] })
        (((lookupTok m tok)).getD [])), processed) := by
  simp only [exactStep]
  rw [if_neg (by simpa using hf)]

/-- Helper: `exactStep` preserves the per-file exact-map invariant when the
processed occurrence really sits on the recorded line. -/
theorem exactStep_preserves (tree : FileTree) (seen : List Chars) (f : Chars)
    (ls : List Chars) (m : TermMap) (processed : List (Chars × Chars))
    (tok : Chars) (lineNo : Nat) (hfseen : f ∉ seen)
    (hw : ∃ i, i < ls.length ∧ lineNo = i + 1 ∧ tok ∈ lineTokens (ls.getD i []))
    (hinv : ExactInvFile tree seen f ls m processed) :
    ExactInvFile tree seen f ls (exactStep f lineNo tok m processed).1
      (exactStep f lineNo tok m processed).2 := by
  obtain ⟨i, hi, hlno, htok⟩ := hw
  have hcur : ∀ e ∈ (lookupTok m tok).getD [],
      e.occurrences = e.positions.length ∧
      ((e.file = f ∧ (tok, f) ∈ processed ∧ ExactPosOk ls tok e) ∨
       (e.file ∈ seen ∧ ExactProv tree tok e)) := by
    cases hl : lookupTok m tok with
    | none => simp
    | some ps =>
      intro e he
      exact (hinv tok ps hl).2 e (by simpa using he)
  have hcnd : (((lookupTok m tok).getD []).map Posting.file).Nodup := by
    cases hl : lookupTok m tok with
    | none => simp
    | some ps => simpa using (hinv tok ps hl).1
  by_cases hp : (tok, f) ∈ processed
  · -- repeated encounter: in-place update of the posting for `f`
    rw [exactStep_eq_update _ _ _ _ _ hp]
    intro t ps hps
    by_cases ht : t = tok
    · subst ht
      rw [lookupTok_setTok_self] at hps
      have hps' : ps = updateFirst (fun e => e.file == f)
          (fun e => { e with occurrences := e.occurrences + 1,
                             positions := e.positions ++ [lineNo] })
          ((lookupTok m t).getD []) := (Option.some.inj hps).symm
      subst hps'
      constructor
      · rw [updateFirst_map_eq (fun e => e.file == f)
            (fun e => { e with occurrences := e.occurrences + 1,
                               positions := e.positions ++ [lineNo] })
            Posting.file (fun a => rfl)]
        exact hcnd
      · intro e he
        rcases mem_updateFirst _ _ _ _ he with he' | ⟨y, hy, hpy, rfl⟩
        · exact ⟨(hcur e he').1, (hcur e he').2⟩
        · have hyf : y.file = f := by simpa using hpy
          obtain ⟨hyocc, hydisj⟩ := hcur y hy
          have hyleft : y.file = f ∧ (t, f) ∈ processed ∧ ExactPosOk ls t y := by
            rcases hydisj with hl | ⟨hys, _⟩
            · exact hl
            · exact absurd (hyf ▸ hys) hfseen
          refine ⟨by simp [hyocc], Or.inl ⟨hyf, hyleft.2.1, ?_⟩⟩
          intro p hpmem
          rcases List.mem_append.1 hpmem with hpold | hpnew
          · exact hyleft.2.2 p hpold
          · have : p = lineNo := by simpa using hpnew
            exact ⟨i, hi, by omega, htok⟩
    · rw [lookupTok_setTok_ne _ _ _ _ ht] at hps
      obtain ⟨hnd, hall⟩ := hinv t ps hps
      exact ⟨hnd, hall⟩
  · -- first encounter: push of a fresh posting for `f`
    rw [exactStep_eq_push _ _ _ _ _ hp]
    intro t ps hps
    by_cases ht : t = tok
    · subst ht
      rw [lookupTok_setTok_self] at hps
      have hps' : ps = (lookupTok m t).getD [] ++ [⟨f, 1, [lineNo]⟩] :=
        (Option.some.inj hps).symm
      subst hps'
      constructor
      · rw [List.map_append]
        rw [List.nodup_append]
        refine ⟨hcnd, by simp, ?_⟩
        intro a ha hb
        have haf : a = f := by simpa using hb
        subst haf
        rcases List.mem_map.1 ha with ⟨e, he, hef⟩
        rcases (hcur e he).2 with ⟨_, hmem, _⟩ | ⟨hys, _⟩
        · exact hp (hef ▸ hmem)
        · exact hfseen (hef ▸ hys)
      · intro e he
        rcases List.mem_append.1 he with he' | he'
        · obtain ⟨hocc, hdisj⟩ := hcur e he'
          refine ⟨hocc, ?_⟩
          rcases hdisj with ⟨h1, h2, h3⟩ | hr
          · exact Or.inl ⟨h1, List.mem_cons_of_mem _ h2, h3⟩
          · exact Or.inr hr
        · have he'' : e = ⟨f, 1, [lineNo]⟩ := by simpa using he'
          subst he''
          refine ⟨rfl, Or.inl ⟨rfl, List.mem_cons_self _ _, ?_⟩⟩
          intro p hpmem
          have : p = lineNo := by simpa using hpmem
          exact ⟨i, hi, by omega, htok⟩
    · rw [lookupTok_setTok_ne _ _ _ _ ht] at hps
      obtain ⟨hnd, hall⟩ := hinv t ps hps
      refine ⟨hnd, fun e he => ?_⟩
      obtain ⟨hocc, hdisj⟩ := hall e he
      refine ⟨hocc, ?_⟩
      rcases hdisj with ⟨h1, h2, h3⟩ | hr
      · exact Or.inl ⟨h1, List.mem_cons_of_mem _ h2, h3⟩
      · exact Or.inr hr

/-- Helper: `termsStep` preserves the per-file sub-token invariant. -/
theorem termsStep_preserves (tree : FileTree) (seen : List Chars) (f : Chars)
    (m : TermMap) (sub : Chars) (lineNo : Nat) (hfseen : f ∉ seen)
    (hinv : TermsInvFile tree seen f m) :
    TermsInvFile tree seen f (termsStep f lineNo sub m) := by
  have hcur : ∀ e ∈ (lookupTok m (lowerStr sub)).getD [],
      e.positions.length ≤ e.occurrences ∧
      (e.file = f ∨ (e.file ∈ seen ∧ TermProv tree e)) := by
    cases hl : lookupTok m (lowerStr sub) with
    | none => simp
    | some ps =>
      intro e he
      exact (hinv _ ps hl).2 e (by simpa using he)
  have hcnd : (((lookupTok m (lowerStr sub)).getD []).map Posting.file).Nodup := by
    cases hl : lookupTok m (lowerStr sub) with
    | none => simp
    | some ps => simpa using (hinv _ ps hl).1
  unfold termsStep
  cases hfind : ((lookupTok m (lowerStr sub)).getD []).find?
      (fun e => e.file == f) with
  | none =>
    simp only [hfind]
    intro t ps hps
    by_cases ht : t = lowerStr sub
    · subst ht
      rw [lookupTok_setTok_self] at hps
      have hps' : ps = (lookupTok m (lowerStr sub)).getD [] ++
          [⟨f, 1, [lineNo]⟩] := (Option.some.inj hps).symm
      subst hps'
      have hnof : ∀ e ∈ (lookupTok m (lowerStr sub)).getD [], e.file ≠ f := by
        intro e he
        have := List.find?_eq_none.1 hfind e he
        simpa using this
      constructor
      · rw [List.map_append, List.nodup_append]
        refine ⟨hcnd, by simp, ?_⟩
        intro a ha hb
        have haf : a = f := by simpa using hb
        subst haf
        rcases List.mem_map.1 ha with ⟨e, he, hef⟩
        exact hnof e he hef
      · intro e he
        rcases List.mem_append.1 he with he' | he'
        · exact hcur e he'
        · have he'' : e = ⟨f, 1, [lineNo]⟩ := by simpa using he'
          subst he''
          exact ⟨by simp, Or.inl rfl⟩
    · rw [lookupTok_setTok_ne _ _ _ _ ht] at hps
      exact hinv t ps hps
  | some e₀ =>
    simp only [hfind]
    intro t ps hps
    by_cases ht : t = lowerStr sub
    · subst ht
      rw [lookupTok_setTok_self] at hps
      have hps' : ps = updateFirst (fun e => e.file == f)
          (fun e => { e with occurrences := e.occurrences + 1,
                             positions := if lineNo ∈ e.positions then e.positions
                                          else e.positions ++ [lineNo] })
          ((lookupTok m (lowerStr sub)).getD []) := (Option.some.inj hps).symm
      subst hps'
      constructor
      · rw [updateFirst_map_eq (fun e => e.file == f)
            (fun e => { e with occurrences := e.occurrences + 1,
                               positions := if lineNo ∈ e.positions then e.positions
                                            else e.positions ++ [lineNo] })
            Posting.file (fun a => rfl)]
        exact hcnd
      · intro e he
        rcases mem_updateFirst _ _ _ _ he with he' | ⟨y, hy, hpy, rfl⟩
        · exact hcur e he'
        · have hyf : y.file = f := by simpa using hpy
          obtain ⟨hylen, _⟩ := hcur y hy
          refine ⟨?_, Or.inl hyf⟩
          by_cases hmem : lineNo ∈ y.positions
          · simp only [hmem, if_pos]
            omega
          · simp only [hmem, if_neg, not_false_iff, List.length_append]
            simp
            omega
    · rw [lookupTok_setTok_ne _ _ _ _ ht] at hps
      exact hinv t ps hps

/-- Helper: `indexToken` preserves both per-file invariants when the token
really occurs on the recorded line. -/
theorem indexToken_preserves (tree : FileTree) (seen : List Chars) (f : Chars)
    (ls : List Chars) (st : BuildSt) (tok : Chars) (lineNo : Nat)
    (hfseen : f ∉ seen)
    (hw : ∃ i, i < ls.length ∧ lineNo = i + 1 ∧ tok ∈ lineTokens (ls.getD i []))
    (hex : ExactInvFile tree seen f ls st.exactTerms st.processed)
    (htm : TermsInvFile tree seen f st.terms) :
    ExactInvFile tree seen f ls (indexToken f lineNo st tok).exactTerms
      (indexToken f lineNo st tok).processed ∧
    TermsInvFile tree seen f (indexToken f lineNo st tok).terms := by
  unfold indexToken
  split
  · exact ⟨hex, htm⟩
  · dsimp only
    constructor
    · exact exactStep_preserves tree seen f ls st.exactTerms st.processed tok
        lineNo hfseen hw hex
    · exact foldl_preserve _ _ _ htm
        (fun m sub _ hm => termsStep_preserves tree seen f m sub lineNo hfseen hm)

/-- Helper: the finished invariants restate as in-file invariants with an
empty processed set. -/
theorem inv_start (tree : FileTree) (seen : List Chars) (f : Chars)
    (ls : List Chars) (exm tmm : TermMap) (hex : ExactInv tree seen exm)
    (htm : TermsInv tree seen tmm) :
    ExactInvFile tree seen f ls exm [] ∧ TermsInvFile tree seen f tmm := by
  constructor
  · intro t ps hps
    obtain ⟨hnd, hall⟩ := hex t ps hps
    refine ⟨hnd, fun e he => ?_⟩
    obtain ⟨h1, h2, h3⟩ := hall e he
    exact ⟨h1, Or.inr ⟨h2, h3⟩⟩
  · intro t ps hps
    obtain ⟨hnd, hall⟩ := htm t ps hps
    refine ⟨hnd, fun e he => ?_⟩
    obtain ⟨h1, h2, h3⟩ := hall e he
    exact ⟨h1, Or.inr ⟨h2, h3⟩⟩

/-- Helper: the finished invariants tolerate a grown seen set. -/
theorem inv_weaken (tree : FileTree) (seen : List Chars) (f : Chars)
    (exm tmm : TermMap) (hex : ExactInv tree seen exm)
    (htm : TermsInv tree seen tmm) :
    ExactInv tree (f :: seen) exm ∧ TermsInv tree (f :: seen) tmm := by
  constructor
  · intro t ps hps
    obtain ⟨hnd, hall⟩ := hex t ps hps
    refine ⟨hnd, fun e he => ?_⟩
    obtain ⟨h1, h2, h3⟩ := hall e he
    exact ⟨h1, List.mem_cons_of_mem _ h2, h3⟩
  · intro t ps hps
    obtain ⟨hnd, hall⟩ := htm t ps hps
    refine ⟨hnd, fun e he => ?_⟩
    obtain ⟨h1, h2, h3⟩ := hall e he
    exact ⟨h1, List.mem_cons_of_mem _ h2, h3⟩

/-- Helper: indexing one qualifying file turns the finished invariants over
`seen` into finished invariants over `f :: seen`. -/
theorem indexFile_preserves (tree : FileTree) (seen : List Chars) (f : Chars)
    (ls : List Chars) (exm tmm : TermMap) (hfseen : f ∉ seen)
    (hex : ExactInv tree seen exm) (htm : TermsInv tree seen tmm)
    (hf : ∃ sz, (f, ⟨sz, some ls⟩) ∈ tree ∧ sz ≤ 1048576 ∧
      allowedIndexExt f = true) :
    ExactInv tree (f :: seen) (indexFile f ls exm tmm).1 ∧
    TermsInv tree (f :: seen) (indexFile f ls exm tmm).2 := by
  have hstart := inv_start tree seen f ls exm tmm hex htm
  have hfold : (fun st : BuildSt =>
      ExactInvFile tree seen f ls st.exactTerms st.processed ∧
      TermsInvFile tree seen f st.terms)
      ((ls.enum).foldl (fun st il =>
        (lineTokens il.2).foldl (fun st tok => indexToken f (il.1 + 1) st tok) st)
        (⟨exm, tmm, []⟩ : BuildSt)) := by
    refine @foldl_preserve _ _ (fun st : BuildSt =>
        ExactInvFile tree seen f ls st.exactTerms st.processed ∧
        TermsInvFile tree seen f st.terms) _ _ _ ⟨hstart.1, hstart.2⟩ ?_
    intro st il hil hst
    obtain ⟨hlt, hgd⟩ := mem_enum_getD [] ls il hil
    refine @foldl_preserve _ _ (fun st : BuildSt =>
        ExactInvFile tree seen f ls st.exactTerms st.processed ∧
        TermsInvFile tree seen f st.terms) _ _ _ hst ?_
    intro st' tok htokmem hst'
    exact indexToken_preserves tree seen f ls st' tok (il.1 + 1) hfseen
      ⟨il.1, hlt, rfl, by rw [hgd]; exact htokmem⟩ hst'.1 hst'.2
  obtain ⟨hexf, htmf⟩ := hfold
  obtain ⟨sz, hmem, hsz, hae⟩ := hf
  constructor
  · intro t ps hps
    obtain ⟨hnd, hall⟩ := hexf t ps hps
    refine ⟨hnd, fun e he => ?_⟩
    obtain ⟨hocc, hdisj⟩ := hall e he
    rcases hdisj with ⟨h1, _, h3⟩ | ⟨h1, h2⟩
    · refine ⟨hocc, by rw [h1]; exact List.mem_cons_self _ _,
        ⟨sz, ls, ?_, hsz, ?_, h3⟩⟩
      · rw [h1]; exact hmem
      · rw [h1]; exact hae
    · exact ⟨hocc, List.mem_cons_of_mem _ h1, h2⟩
  · intro t ps hps
    obtain ⟨hnd, hall⟩ := htmf t ps hps
    refine ⟨hnd, fun e he => ?_⟩
    obtain ⟨hlen, hdisj⟩ := hall e he
    rcases hdisj with h1 | ⟨h1, h2⟩
    · refine ⟨hlen, by rw [h1]; exact List.mem_cons_self _ _,
        ⟨sz, ls, ?_, hsz, ?_⟩⟩
      · rw [h1]; exact hmem
      · rw [h1]; exact hae
    · exact ⟨hlen, List.mem_cons_of_mem _ h1, h2⟩

/-- Helper: the per-file build fold keeps the finished invariants over some
grown seen set. -/
theorem buildFold_inv (tree : FileTree) :
    ∀ (rest : List (Chars × TreeFile)) (seen : List Chars) (exm tmm : TermMap),
      (∀ ft ∈ rest, ft ∈ tree) →
      (∀ ft ∈ rest, ft.1 ∉ seen) →
      (rest.map Prod.fst).Nodup →
      ExactInv tree seen exm → TermsInv tree seen tmm →
      ∃ seen', ExactInv tree seen' (rest.foldl buildFileStep (exm, tmm)).1 ∧
        TermsInv tree seen' (rest.foldl buildFileStep (exm, tmm)).2 := by
  intro rest
  induction rest with
  | nil =>
    intro seen exm tmm _ _ _ hex htm
    exact ⟨seen, hex, htm⟩
  | cons ft rest ih =>
    intro seen exm tmm hmem hfresh hnd hex htm
    rw [List.foldl_cons]
    have hnd' : (ft.1 :: rest.map Prod.fst).Nodup := by
      rw [List.map_cons] at hnd
      exact hnd
    have hndtail : (rest.map Prod.fst).Nodup := (List.nodup_cons.1 hnd').2
    have hhead : ft.1 ∉ rest.map Prod.fst := (List.nodup_cons.1 hnd').1
    have hmem' : ∀ g ∈ rest, g ∈ tree :=
      fun g hg => hmem g (List.mem_cons_of_mem _ hg)
    have hfresh' : ∀ g ∈ rest, g.1 ∉ (ft.1 :: seen) := by
      intro g hg hin
      rcases List.mem_cons.1 hin with heq | hin'
      · exact hhead (heq ▸ List.mem_map_of_mem Prod.fst hg)
      · exact hfresh g (List.mem_cons_of_mem _ hg) hin'
    obtain ⟨hexw, htmw⟩ := inv_weaken tree seen ft.1 exm tmm hex htm
    by_cases h1 : 1048576 < ft.2.size
    · have hstep : buildFileStep (exm, tmm) ft = (exm, tmm) := by
        simp [buildFileStep, h1]
      rw [hstep]
      exact ih (ft.1 :: seen) exm tmm hmem' hfresh' hndtail hexw htmw
    · by_cases h2 : allowedIndexExt ft.1
      · cases hls : ft.2.lines with
        | none =>
          have hstep : buildFileStep (exm, tmm) ft = (exm, tmm) := by
            simp [buildFileStep, h1, h2, hls]
          rw [hstep]
          exact ih (ft.1 :: seen) exm tmm hmem' hfresh' hndtail hexw htmw
        | some ls =>
          have hstep : buildFileStep (exm, tmm) ft = indexFile ft.1 ls exm tmm := by
            simp [buildFileStep, h1, h2, hls]
          rw [hstep]
          have hintree : (ft.1, (⟨ft.2.size, some ls⟩ : TreeFile)) ∈ tree := by
            rw [← hls]
            exact hmem ft (List.mem_cons_self _ _)
          have hfq : ∃ sz, (ft.1, (⟨sz, some ls⟩ : TreeFile)) ∈ tree ∧
              sz ≤ 1048576 ∧ allowedIndexExt ft.1 = true :=
            ⟨ft.2.size, hintree, by omega, h2⟩
          obtain ⟨hex', htm'⟩ := indexFile_preserves tree seen ft.1 ls exm tmm
            (hfresh ft (List.mem_cons_self _ _)) hex htm hfq
          exact ih (ft.1 :: seen) _ _ hmem' hfresh' hndtail hex' htm'
      · have hstep : buildFileStep (exm, tmm) ft = (exm, tmm) := by
          simp [buildFileStep, h1, h2]
        rw [hstep]
        exact ih (ft.1 :: seen) exm tmm hmem' hfresh' hndtail hexw htmw

/-- Soundness of `buildSearchIndex` over a tree with pairwise-distinct file
paths: per token, the postings name pairwise-distinct files; every exact
posting counts occurrences exactly as recorded positions and each recorded
position is a valid line of an indexed file on which the token occurs;
every sub-token posting has at most as many positions as occurrences and
also names an indexed file. -/
theorem buildSearchIndex_sound (tree : FileTree)
    (hn : (tree.map Prod.fst).Nodup) :
    (∀ t ps, lookupTok (buildSearchIndex tree).exactTerms t = some ps →
      (ps.map Posting.file).Nodup ∧
      ∀ e ∈ ps, e.occurrences = e.positions.length ∧ ExactProv tree t e) ∧
    (∀ t ps, lookupTok (buildSearchIndex tree).terms t = some ps →
      (ps.map Posting.file).Nodup ∧
      ∀ e ∈ ps, e.positions.length ≤ e.occurrences ∧ TermProv tree e) := by
  have hempty_ex : ExactInv tree [] [] := by
    intro t ps hps
    simp [lookupTok] at hps
  have hempty_tm : TermsInv tree [] [] := by
    intro t ps hps
    simp [lookupTok] at hps
  obtain ⟨seen', hex, htm⟩ := buildFold_inv tree tree [] [] []
    (fun _ h => h) (by simp) hn hempty_ex hempty_tm
  constructor
  · intro t ps hps
    obtain ⟨hnd, hall⟩ := hex t ps hps
    exact ⟨hnd, fun e he => ⟨(hall e he).1, (hall e he).2.2⟩⟩
  · intro t ps hps
    obtain ⟨hnd, hall⟩ := htm t ps hps
    exact ⟨hnd, fun e he => ⟨(hall e he).1, (hall e he).2.2⟩⟩

/-- C10: in the index built from a tree with pairwise-distinct file paths,
each file appears in at most one posting of any token's postings list, in
`exactTerms` as well as in `terms`. -/
theorem postings_file_unique (tree : FileTree)
    (hn : (tree.map Prod.fst).Nodup) :
    (∀ t ps, lookupTok (buildSearchIndex tree).exactTerms t = some ps →
      (ps.map Posting.file).Nodup) ∧
    (∀ t ps, lookupTok (buildSearchIndex tree).terms t = some ps →
      (ps.map Posting.file).Nodup) :=
  ⟨fun t ps h => ((buildSearchIndex_sound tree hn).1 t ps h).1,
   fun t ps h => ((buildSearchIndex_sound tree hn).2 t ps h).1⟩

/-- Witness for `postings_file_unique` on a concrete tree. -/
theorem postings_file_unique_witness :
    (([⟨ajs, 2, [1, 1]⟩] : List Posting).map Posting.file).Nodup :=
  (postings_file_unique treeDupToken (by decide)).1 fooPat
    [⟨ajs, 2, [1, 1]⟩] (by decide)

/-- C9 amended: the `exactTerms` update branch always appends the line
number, so for every exact posting `occurrences` equals the length of
`positions` (which may therefore hold duplicate line numbers); for the
`terms` postings duplicate line numbers are suppressed, so there
`occurrences` can exceed the length of `positions`, never the converse. -/
theorem occurrences_positions_relation (tree : FileTree)
    (hn : (tree.map Prod.fst).Nodup) :
    (∀ t ps e, lookupTok (buildSearchIndex tree).exactTerms t = some ps →
      e ∈ ps → e.occurrences = e.positions.length) ∧
    (∀ t ps e, lookupTok (buildSearchIndex tree).terms t = some ps →
      e ∈ ps → e.positions.length ≤ e.occurrences) :=
  ⟨fun t ps e h he => (((buildSearchIndex_sound tree hn).1 t ps h).2 e he).1,
   fun t ps e h he => (((buildSearchIndex_sound tree hn).2 t ps h).2 e he).1⟩

/-- Witness for `occurrences_positions_relation` on a concrete tree whose
one file repeats a token twice on one line. -/
theorem occurrences_positions_relation_witness :
    (⟨ajs, 2, [1, 1]⟩ : Posting).occurrences =
      (⟨ajs, 2, [1, 1]⟩ : Posting).positions.length ∧
    (⟨ajs, 4, [1]⟩ : Posting).positions.length ≤
      (⟨ajs, 4, [1]⟩ : Posting).occurrences :=
  ⟨(occurrences_positions_relation treeDupToken (by decide)).1 fooPat
      [⟨ajs, 2, [1, 1]⟩] ⟨ajs, 2, [1, 1]⟩ (by decide) (by decide),
   (occurrences_positions_relation treeDupToken (by decide)).2 fooPat
      [⟨ajs, 4, [1]⟩] ⟨ajs, 4, [1]⟩ (by decide) (by decide)⟩

/-- C8 amended: a posting, exact or sub-token, only names files whose
recorded size is at most one mebibyte (the guard skips only strictly larger
files) and whose extension is in the allow-list; a file larger than 1 MiB,
or with a non-allow-listed extension, contributes no posting to either
map. -/
theorem indexed_files_bounded (tree : FileTree)
    (hn : (tree.map Prod.fst).Nodup) :
    (∀ t ps e, lookupTok (buildSearchIndex tree).exactTerms t = some ps →
      e ∈ ps → ∃ sz ls, (e.file, (⟨sz, some ls⟩ : TreeFile)) ∈ tree ∧
        sz ≤ 1048576 ∧ allowedIndexExt e.file = true) ∧
    (∀ t ps e, lookupTok (buildSearchIndex tree).terms t = some ps →
      e ∈ ps → ∃ sz ls, (e.file, (⟨sz, some ls⟩ : TreeFile)) ∈ tree ∧
        sz ≤ 1048576 ∧ allowedIndexExt e.file = true) := by
  constructor
  · intro t ps e h he
    obtain ⟨sz, ls, hmem, hsz, hae, _⟩ :=
      (((buildSearchIndex_sound tree hn).1 t ps h).2 e he).2
    exact ⟨sz, ls, hmem, hsz, hae⟩
  · intro t ps e h he
    exact (((buildSearchIndex_sound tree hn).2 t ps h).2 e he).2

/-- Witness for `indexed_files_bounded` at the one-mebibyte boundary. -/
theorem indexed_files_bounded_witness :
    ∃ sz ls,
      ((⟨ajs, 1, [1]⟩ : Posting).file, (⟨sz, some ls⟩ : TreeFile)) ∈ treeOneMiB ∧
      sz ≤ 1048576 ∧ allowedIndexExt (⟨ajs, 1, [1]⟩ : Posting).file = true :=
  (indexed_files_bounded treeOneMiB (by decide)).1 fooPat
    [⟨ajs, 1, [1]⟩] ⟨ajs, 1, [1]⟩ (by decide) (by decide)

/-- Helper: a fallback file record keeps the scanned file's name. -/
theorem fallbackFileResult_file (pattern category repo : Chars)
    (env : RepoEnv) (file : Chars) (r : SearchResult)
    (h : fallbackFileResult pattern category repo env file = some r) :
    r.file = file := by
  unfold fallbackFileResult at h
  cases hrf : env.readFile file with
  | none =>
    rw [hrf] at h
    exact absurd h (by simp)
  | some lines =>
    rw [hrf] at h
    dsimp only at h
    split at h
    · exact absurd h (by simp)
    · rw [← Option.some.inj h]

/-- Helper: over pairwise-distinct scanned files the fallback records name
pairwise-distinct files. -/
theorem nodup_fallback_files (pattern category repo : Chars) (env : RepoEnv)
    (files : List Chars) (h : files.Nodup) :
    ((files.filterMap (fallbackFileResult pattern category repo env)).map
      (fun r => r.file)).Nodup := by
  induction files with
  | nil => simp
  | cons f fs ih =>
    rw [List.nodup_cons] at h
    obtain ⟨hf, hfs⟩ := h
    rw [List.filterMap_cons]
    cases hr : fallbackFileResult pattern category repo env f with
    | none => exact ih hfs
    | some r =>
      rw [List.map_cons, List.nodup_cons]
      refine ⟨?_, ih hfs⟩
      intro hmem
      rcases List.mem_map.1 hmem with ⟨r', hr', hfile⟩
      rcases List.mem_filterMap.1 hr' with ⟨f', hf', hsome⟩
      apply hf
      have h1 := fallbackFileResult_file pattern category repo env f' r' hsome
      have h2 := fallbackFileResult_file pattern category repo env f r hr
      have hff : f = f' := by rw [← h2, ← hfile, h1]
      rw [hff]
      exact hf'

/-- Helper: every record of the shared cached per-posting construction
carries exactly one line match. -/
theorem postingResults_single (filePattern category repo : Chars)
    (env : RepoEnv) (m : Posting) (r : SearchResult)
    (h : r ∈ postingResults filePattern category repo env m) :
    r.lineMatches.length = 1 := by
  unfold postingResults at h
  split at h
  · exact absurd h (by simp)
  · cases hrf : env.readFile m.file with
    | none =>
      rw [hrf] at h
      exact absurd h (by simp)
    | some lines =>
      rw [hrf] at h
      rcases List.mem_filterMap.1 h with ⟨pos, hpos, hsome⟩
      split at hsome
      · exact absurd hsome (by simp)
      · rw [← Option.some.inj hsome]
        rfl

/-- C7 amended: in the fallback-scan path all matches of one file form a
single record and, over pairwise-distinct scanned files, no two records
share a file; in the cached exact and fuzzy paths each emitted record
instead carries exactly one line match — one record per recorded position —
so several records of one response can share the same
(category, repo, file) triple. -/
theorem merge_per_file_amended :
    (∀ (pattern category repo : Chars) (env : RepoEnv) (files : List Chars),
      files.Nodup →
      ((files.filterMap (fallbackFileResult pattern category repo env)).map
        (fun r => r.file)).Nodup) ∧
    (∀ (filePattern category repo : Chars) (env : RepoEnv) (m : Posting)
        (r : SearchResult),
      r ∈ postingResults filePattern category repo env m →
      r.lineMatches.length = 1) :=
  ⟨nodup_fallback_files, postingResults_single⟩

/-- Witness for `merge_per_file_amended` at concrete inputs. -/
theorem merge_per_file_amended_witness :
    (([ajs, bjs].filterMap
        (fallbackFileResult fooPat catC repoR1 envExactFoo)).map
      (fun r => r.file)).Nodup ∧
    (⟨catC, repoR1, ajs,
        [contextFor [fooLine, fooLine] 0]⟩ : SearchResult).lineMatches.length = 1 :=
  ⟨merge_per_file_amended.1 fooPat catC repoR1 envExactFoo [ajs, bjs] (by decide),
   merge_per_file_amended.2 starPat catC repoR1 envTwoPositions ⟨ajs, 2, [1, 2]⟩
     ⟨catC, repoR1, ajs, [contextFor [fooLine, fooLine] 0]⟩ (by decide)⟩

/-- Helper: every token emitted by the scanner is a contiguous substring of
the scanned text (prefixed by the reversed current token when inside
one). -/
theorem lineTokensGo_substring :
    ∀ (l : Chars) (cur : Chars) (t : Chars),
      (t ∈ lineTokensGo (some cur) l → t <:+: (cur.reverse ++ l)) ∧
      (t ∈ lineTokensGo none l → t <:+: l) := by
  intro l
  induction l with
  | nil =>
    intro cur t
    constructor
    · intro h
      simp only [lineTokensGo, List.mem_singleton] at h
      subst h
      exact ⟨[], [], by simp⟩
    · intro h
      simp [lineTokensGo] at h
  | cons c rest ih =>
    intro cur t
    constructor
    · intro h
      simp only [lineTokensGo] at h
      by_cases hc : isIdentChar c
      · rw [if_pos hc] at h
        have hi := (ih (c :: cur) t).1 h
        obtain ⟨s, u, hsu⟩ := hi
        refine ⟨s, u, ?_⟩
        rw [List.reverse_cons, List.append_assoc] at hsu
        simpa using hsu
      · rw [if_neg hc] at h
        rcases List.mem_cons.1 h with rfl | h'
        · exact ⟨[], c :: rest, by simp⟩
        · obtain ⟨s, u, hsu⟩ := (ih [] t).2 h'
          exact ⟨cur.reverse ++ c :: s, u, by simp [hsu]⟩
    · intro h
      simp only [lineTokensGo] at h
      by_cases hc : isIdentStart c
      · rw [if_pos hc] at h
        have hi := (ih [c] t).1 h
        simpa using hi
      · rw [if_neg hc] at h
        obtain ⟨s, u, hsu⟩ := (ih [] t).2 h
        exact ⟨c :: s, u, by simp [hsu]⟩

/-- Helper: every identifier token of a line is a contiguous substring of
the line. -/
theorem lineTokens_substring (l t : Chars) (h : t ∈ lineTokens l) : t <:+: l :=
  (lineTokensGo_substring l [] t).2 h

/-- Helper: a list is a boolean prefix of itself extended by anything. -/
theorem isPrefixOf_append (a b : Chars) : a.isPrefixOf (a ++ b) = true := by
  induction a with
  | nil => simp [List.isPrefixOf]
  | cons x xs ih => simp [List.isPrefixOf, ih]

/-- Helper: the substring test accepts every prefix. -/
theorem strIncludes_of_leading (p l : Chars) (h : p <+: l) :
    strIncludes p l = true := by
  obtain ⟨u, rfl⟩ := h
  cases hp : p with
  | nil =>
    subst hp
    cases u with
    | nil => simp [strIncludes, List.isPrefixOf]
    | cons c u' => simp [strIncludes, List.isPrefixOf]
  | cons c p' =>
    subst hp
    rw [List.cons_append, strIncludes, ← List.cons_append, isPrefixOf_append,
        Bool.true_or]

/-- Helper: the substring test survives prepending a character. -/
theorem strIncludes_cons (p l : Chars) (c : Char)
    (h : strIncludes p l = true) : strIncludes p (c :: l) = true := by
  rw [strIncludes, h, Bool.or_true]

/-- Helper: the JavaScript substring test accepts every contiguous
substring. -/
theorem strIncludes_of_substring (p l : Chars) (h : p <:+: l) :
    strIncludes p l = true := by
  obtain ⟨s, u, rfl⟩ := h
  induction s with
  | nil => exact strIncludes_of_leading p (p ++ u) ⟨u, rfl⟩
  | cons c s' ih => exact strIncludes_cons _ _ c ih

/-- Helper: association-list lookup finds a member under distinct keys. -/
theorem lookupFileTree_of_mem_nodup (tree : FileTree) (f : Chars)
    (tf : TreeFile) (hn : (tree.map Prod.fst).Nodup) (hmem : (f, tf) ∈ tree) :
    lookupFileTree tree f = some tf := by
  induction tree with
  | nil => simp at hmem
  | cons kv rest ih =>
    rw [List.map_cons, List.nodup_cons] at hn
    obtain ⟨hk, hrest⟩ := hn
    obtain ⟨k, v⟩ := kv
    rcases List.mem_cons.1 hmem with heq | hmem'
    · injection heq with h1 h2
      subst h1
      subst h2
      simp [lookupFileTree]
    · by_cases hkf : k = f
      · subst hkf
        exact absurd (List.mem_map_of_mem Prod.fst hmem') hk
      · simp only [lookupFileTree, if_neg hkf]
        exact ih hrest hmem'

/-- Helper: the default star pattern accepts every file. -/
theorem fileAllowed_star (f : Chars) : fileAllowed starPat f = true := by
  simp [fileAllowed]

/-- Helper: evaluation of a single-repository cached search whose exact
lookup produced results. -/
theorem searchCodeWithCache_cached_exact (pattern cat rp : Chars)
    (env : RepoEnv) (idx : SearchIndex) (hex : env.existsOnDisk = true)
    (hcv : env.cacheValid = true) (hsi : env.searchIndex = some idx)
    (hne : exactResults pattern starPat cat rp env idx ≠ []) :
    searchCodeWithCache pattern starPat none none [(cat, [(rp, env)])] =
      exactResults pattern starPat cat rp env idx := by
  rw [searchCodeWithCache_single]
  simp [searchRepos, repoStep, hex, hcv, hsi, List.length_eq_zero, hne]

/-- Helper: evaluation of a single-repository fallback search. -/
theorem searchCodeWithCache_fallback_eval (pattern cat rp : Chars)
    (env : RepoEnv) (files : List Chars) (hex : env.existsOnDisk = true)
    (hcv : env.cacheValid = false) (hsf : env.scanFiles = some files) :
    searchCodeWithCache pattern starPat none none [(cat, [(rp, env)])] =
      files.filterMap (fallbackFileResult pattern cat rp env) := by
  rw [searchCodeWithCache_single]
  simp [searchRepos, repoStep, hex, hcv, hsf]

/-- Helper: the fallback scan of a readable file reports a merged record
containing the context match of every line on which the pattern occurs as a
substring. -/
theorem fallbackFileResult_contains (pattern category repo : Chars)
    (env : RepoEnv) (file : Chars) (ls : List Chars) (i : Nat)
    (hread : env.readFile file = some ls) (hilt : i < ls.length)
    (hinc : strIncludes pattern (ls.getD i []) = true) :
    ∃ r', fallbackFileResult pattern category repo env file = some r' ∧
      r'.file = file ∧ contextFor ls i ∈ r'.lineMatches := by
  unfold fallbackFileResult
  rw [hread]
  dsimp only
  have hctx : contextFor ls i ∈ (ls.enum).filterMap (fun il =>
      if strIncludes pattern il.2 then some (contextFor ls il.1) else none) := by
    refine List.mem_filterMap.2 ⟨(i, ls.getD i []), enum_mem_of_lt [] ls i hilt, ?_⟩
    have hinc2 : strIncludes pattern (((i, ls.getD i []) : Nat × Chars).2) = true :=
      hinc
    rw [if_pos hinc2]
  have hne' : (ls.enum).filterMap (fun il =>
      if strIncludes pattern il.2 then some (contextFor ls il.1) else none) ≠ [] :=
    List.ne_nil_of_mem hctx
  rw [if_neg (by simpa [List.isEmpty_iff] using hne')]
  exact ⟨_, rfl, rfl, hctx⟩

/-- C5 amended: over one working tree, every match reported by the cached
exact-term path of a freshly built index also appears — same file and an
identical line match with identical context — in the direct fallback scan
of the same tree; the converse inclusion, and hence the match-set equality
the spec claims, fails (see the counterexample). -/
theorem cached_exact_refines_fallback (tree : FileTree) (pattern cat rp : Chars)
    (hn : (tree.map Prod.fst).Nodup)
    (hne : exactResults pattern starPat cat rp (cachedEnvOf tree)
      (buildSearchIndex tree) ≠ []) :
    ∀ r ∈ searchCodeWithCache pattern starPat none none
        [(cat, [(rp, cachedEnvOf tree)])],
      ∀ mt ∈ r.lineMatches,
        ∃ r', r' ∈ searchCodeWithCache pattern starPat none none
            [(cat, [(rp, fallbackEnvOf tree)])] ∧
          r'.file = r.file ∧ mt ∈ r'.lineMatches := by
  intro r hr mt hmt
  rw [searchCodeWithCache_cached_exact pattern cat rp (cachedEnvOf tree)
    (buildSearchIndex tree) rfl rfl rfl hne] at hr
  unfold exactResults at hr
  cases hl : lookupTok (buildSearchIndex tree).exactTerms pattern with
  | none =>
    rw [hl] at hr
    simp at hr
  | some ps =>
    rw [hl] at hr
    rcases List.mem_flatMap.1 hr with ⟨posting, hpost, hrp⟩
    obtain ⟨hnd, hall⟩ := (buildSearchIndex_sound tree hn).1 pattern ps hl
    have hprov : ∃ sz ls, (posting.file, (⟨sz, some ls⟩ : TreeFile)) ∈ tree ∧
        sz ≤ 1048576 ∧ allowedIndexExt posting.file = true ∧
        ExactPosOk ls pattern posting := (hall posting hpost).2
    obtain ⟨sz, ls, hmem, hsz, hae, hposok⟩ := hprov
    have hread : (cachedEnvOf tree).readFile posting.file = some ls := by
      have hlf := lookupFileTree_of_mem_nodup tree posting.file ⟨sz, some ls⟩ hn hmem
      show treeReadFile tree posting.file = some ls
      simp [treeReadFile, hlf]
    unfold postingResults at hrp
    rw [if_neg (by simp [fileAllowed_star])] at hrp
    simp only [hread] at hrp
    rcases List.mem_filterMap.1 hrp with ⟨position, hposmem, hsome⟩
    split at hsome
    · exact absurd hsome (by simp)
    · have hrec := Option.some.inj hsome
      have hpos' : ∃ i, i < ls.length ∧ position = i + 1 ∧
          pattern ∈ lineTokens (ls.getD i []) := hposok position hposmem
      obtain ⟨i, hilt, hpi, htok⟩ := hpos'
      have hpos1 : position - 1 = i := by omega
      have hinc : strIncludes pattern (ls.getD i []) = true :=
        strIncludes_of_substring _ _ (lineTokens_substring _ _ htok)
      have hreadF : (fallbackEnvOf tree).readFile posting.file = some ls := hread
      obtain ⟨r', hfr, hrfile, hrmem⟩ := fallbackFileResult_contains pattern cat
        rp (fallbackEnvOf tree) posting.file ls i hreadF hilt hinc
      refine ⟨r', ?_, ?_, ?_⟩
      · rw [searchCodeWithCache_fallback_eval pattern cat rp (fallbackEnvOf tree)
          (tree.map Prod.fst) rfl rfl rfl]
        exact List.mem_filterMap.2
          ⟨posting.file, List.mem_map_of_mem Prod.fst hmem, hfr⟩
      · rw [hrfile, ← hrec]
      · have hmt' : mt = contextFor ls (position - 1) := by
          rw [← hrec] at hmt
          simpa using hmt
        rw [hmt', hpos1]
        exact hrmem

/-- Witness for `cached_exact_refines_fallback` on a concrete one-file
tree. -/
theorem cached_exact_refines_fallback_witness :
    ∃ r', r' ∈ searchCodeWithCache fooPat starPat none none
        [(catC, [(repoR1, fallbackEnvOf treeJsFoo)])] ∧
      r'.file = ajs ∧ contextFor [fooLine] 0 ∈ r'.lineMatches := by
  obtain ⟨r', h1, h2, h3⟩ := cached_exact_refines_fallback treeJsFoo fooPat catC
    repoR1 (by decide) (by decide)
    ⟨catC, repoR1, ajs, [contextFor [fooLine] 0]⟩ (by decide)
    (contextFor [fooLine] 0) (by decide)
  exact ⟨r', h1, h2, h3⟩
